import Mathlib

/-!
Verification of the ex2md Excel-to-Markdown converter.

The Python source (`src/ex2md.py`) is embedded shallowly: Python strings
become `List Char`, Python ints become `Int`, fallible operations return
`Option`/`Except`, and the per-sheet try/except structure of the batch
driver becomes explicit error propagation plus a catching fold.
Python's ASCII-relevant character predicates (`str.isdigit` on the
characters this tool feeds it, whitespace for `str.strip`) are modelled
with the corresponding ASCII predicates.
-/

namespace Ex2md

/-- Python strings, modelled as lists of characters. -/
abbrev Str := List Char

/-- Python `s.split(sep)` for a single-character separator: keeps empty
parts, and the split of the empty string is `[[]]`. -/
def splitOnChar (sep : Char) : Str → List Str
  | [] => [[]]
  | c :: cs =>
    match splitOnChar sep cs with
    | [] => if c = sep then [[], []] else [[c]]
    | h :: t => if c = sep then [] :: h :: t else (c :: h) :: t

/-- Python `sep.join(parts)`. -/
def pyJoin (sep : Str) : List Str → Str
  | [] => []
  | [p] => p
  | p :: ps => p ++ sep ++ pyJoin sep ps

/-- A Python loop that builds a list from the results of a fallible
per-item computation; the first raising item aborts the whole loop with
no partial list. -/
def traverseOpt (f : α → Option β) : List α → Option (List β)
  | [] => some []
  | a :: as =>
    match f a with
    | none => none
    | some b => (traverseOpt f as).map (b :: ·)

/-- Python `s.strip()`: remove leading and trailing whitespace. -/
def strip (s : Str) : Str :=
  ((s.dropWhile Char.isWhitespace).reverse.dropWhile Char.isWhitespace).reverse

/-- Numeric value of a digit string (the core of Python `int` on digits). -/
def digitsVal (s : Str) : Nat :=
  s.foldl (fun acc c => 10 * acc + (c.toNat - '0'.toNat)) 0

/-- Python `int(s)` restricted to an optional sign followed by one or
more ASCII digits; anything else raises `ValueError`, modelled as `none`. -/
def pyInt (s : Str) : Option Int :=
  match s with
  | '-' :: rest => if rest ≠ [] ∧ rest.all Char.isDigit then some (-(digitsVal rest : Int)) else none
  | '+' :: rest => if rest ≠ [] ∧ rest.all Char.isDigit then some (digitsVal rest : Int) else none
  | _ => if s ≠ [] ∧ s.all Char.isDigit then some (digitsVal s : Int) else none

/-! ## RangeSpecParser: `excel_range_to_params` -/

/-- The four accumulator buffers and the flag of the character scan in
`excel_range_to_params`. -/
structure ScanState where
  start_col : Str
  start_row : Str
  end_col : Str
  end_row : Str
  parsing_end_col : Bool
deriving DecidableEq, Repr

/-- One step of the scan loop in `excel_range_to_params` (lines 19-30 of
`ex2md.py`). -/
def scanStep (st : ScanState) (c : Char) : ScanState :=
  if c.isDigit then
    if !st.parsing_end_col then { st with start_row := st.start_row ++ [c] }
    else { st with end_row := st.end_row ++ [c] }
  else if c = ':' then { st with parsing_end_col := true }
  else if !st.parsing_end_col then { st with start_col := st.start_col ++ [c] }
  else { st with end_col := st.end_col ++ [c] }

/-- The scan loop of `excel_range_to_params` over the whole string. -/
def scanRange : Str → ScanState → ScanState
  | [], st => st
  | c :: cs, st => scanRange cs (scanStep st c)

/-- The result record of `excel_range_to_params`: pandas `usecols`,
`skiprows`, `nrows`. -/
structure RangeParams where
  usecols : Str
  skiprows : Int
  nrows : Int
deriving DecidableEq, Repr

/-- `excel_range_to_params` (`ex2md.py` lines 13-43): scan the string,
then `int()` both row buffers (which only ever hold digits, so the
conversion fails exactly when a buffer is empty) and build the params.
A `ValueError` from `int` is modelled as `none`. -/
def excel_range_to_params (range_str : Str) : Option RangeParams :=
  let st := scanRange range_str ⟨[], [], [], [], false⟩
  match pyInt st.start_row, pyInt st.end_row with
  | some sr, some er =>
    some { usecols := st.start_col ++ ':' :: st.end_col
           skiprows := sr - 1
           nrows := er - (sr - 1) }
  | _, _ => none

/-- `range_checker` (`ex2md.py` lines 45-51): attempt the parse, report
boolean success. -/
def range_checker (range_str : Str) : Bool :=
  (excel_range_to_params range_str).isSome

/-- The pattern `<letters><digits>:<letters><digits>` that the
specification says a range string must match, with nonempty runs of
ASCII letters and digits.  This definition follows the spec's words,
not the code; it exists to be compared with `excel_range_to_params`. -/
def matchesRangePattern (s : Str) : Bool :=
  let c1 := s.takeWhile Char.isAlpha
  let r := s.dropWhile Char.isAlpha
  let r1 := r.takeWhile Char.isDigit
  match r.dropWhile Char.isDigit with
  | ':' :: rest =>
    let c2 := rest.takeWhile Char.isAlpha
    let r' := rest.dropWhile Char.isAlpha
    let r2 := r'.takeWhile Char.isDigit
    decide (c1 ≠ []) && decide (r1 ≠ []) && decide (c2 ≠ []) && decide (r2 ≠ []) &&
      decide (r'.dropWhile Char.isDigit = [])
  | _ => false

/-! ## SheetSelector: `parse_sheet_numbers` and `parse_sheet_names` -/

/-- One entry of the sheet list built by the selectors: the Python dict
`{'sheet': name_or_number, 'range': range_str}`, whose `sheet` value is
either an `int` or a `str`. -/
structure SheetSpec where
  sheet : Sum Int Str
  range : Str
deriving DecidableEq, Repr

/-- Python `list(range(a, b + 1))`: the inclusive integer sequence from
`a` to `b`, empty when `a > b`. -/
def pyRangeIncl (a b : Int) : List Int :=
  (List.range (b + 1 - a).toNat).map (fun k : Nat => a + (k : Int))

/-- The body of the loop in `parse_sheet_numbers` (`ex2md.py` lines
56-61) for one comma-token: a hyphenated token is split and expanded to
the inclusive range, any other token is a single `int`.  A `ValueError`
(non-integer part, or not exactly two hyphen-parts) is `none`. -/
def parseNumToken (t : Str) : Option (List Int) :=
  if '-' ∈ t then
    match splitOnChar '-' t with
    | [a, b] =>
      match pyInt a, pyInt b with
      | some x, some y => some (pyRangeIncl x y)
      | _, _ => none
    | _ => none
  else (pyInt t).map (fun n => [n])

/-- `parse_sheet_numbers` (`ex2md.py` lines 53-62): split on commas,
expand every token, and wrap each resulting number as a `SheetSpec`
with an empty range. -/
def parse_sheet_numbers (sheet_numbers : Str) : Option (List SheetSpec) :=
  (traverseOpt parseNumToken (splitOnChar ',' sheet_numbers)).map
    (fun ls => ls.flatten.map (fun n => ⟨Sum.inl n, []⟩))

/-- The body of the loop in `parse_sheet_names` (`ex2md.py` lines
67-74) for one comma-token: `Name!Range` is split at `!` (exactly one
`!` allowed by the two-variable unpacking), its range must pass
`range_checker` or a `ValueError` is raised; a bare token becomes a
spec with an empty range.  Sheet names are stripped of whitespace. -/
def parseNameToken (t : Str) : Option SheetSpec :=
  if '!' ∈ t then
    match splitOnChar '!' t with
    | [sheet, range_str] =>
      if range_checker range_str then some ⟨Sum.inr (strip sheet), range_str⟩ else none
    | _ => none
  else some ⟨Sum.inr (strip t), []⟩

/-- `parse_sheet_names` (`ex2md.py` lines 64-75): split on commas and
parse every token; the first raising token aborts the whole parse. -/
def parse_sheet_names (sheet_names : Str) : Option (List SheetSpec) :=
  traverseOpt parseNameToken (splitOnChar ',' sheet_names)

/-! ## TableNormalizer: escaping, rendering, cleaning -/

/-- A cell of a pandas DataFrame as this tool sees it: a string, a
number, or a missing value (`NaN`). -/
inductive Cell where
  | str (s : Str)
  | num (n : Int)
  | na
deriving DecidableEq, Repr

/-- A DataFrame: column labels (header) plus rows of cells. -/
structure Table where
  headers : List Str
  rows : List (List Cell)
deriving DecidableEq, Repr

/-- `df.fillna('')`: replace every missing cell by the empty string. -/
def fillna (t : Table) : Table :=
  { t with rows := t.rows.map (List.map (fun c => match c with | .na => .str [] | c => c)) }

/-- The escape marker `'<br>'` used by `escape_newlines`. -/
def brS : Str := ['<', 'b', 'r', '>']

/-- Python `x.replace('\n', '<br>')`: every line-break character is
replaced by the four-character marker. -/
def replaceNl : Str → Str
  | [] => []
  | c :: cs => if c = '\n' then brS ++ replaceNl cs else c :: replaceNl cs

/-- The lambda of `escape_newlines`: replace line breaks in string
cells, leave other cells unchanged. -/
def escapeCell : Cell → Cell
  | .str s => .str (replaceNl s)
  | c => c

/-- `escape_newlines` (`ex2md.py` lines 97-99): `applymap` the escaping
lambda over every data cell. -/
def escape_newlines (t : Table) : Table :=
  { t with rows := t.rows.map (List.map escapeCell) }

/-- Text shown for a cell by the renderer. -/
def cellToStr : Cell → Str
  | .str s => s
  | .num n => (toString n).toList
  | .na => ['n', 'a', 'n']

/-- One rendered pipe-table line for a list of cell texts. -/
def pipeLine (cells : List Str) : Str :=
  ['|', ' '] ++ pyJoin [' ', '|', ' '] cells ++ [' ', '|']

/-- Modelled from the spec: the pipe-table renderer
(`tabulate(df, tablefmt="pipe", headers="keys", showindex=False)`) is an
external collaborator, not code of this repository; per the spec's
renderer contract it returns a header line, a separator line and one
line per row, joined with line-break characters into one string. -/
def tabulate_pipe (t : Table) : Str :=
  pyJoin ['\n']
    (pipeLine t.headers ::
     pipeLine (t.headers.map (fun _ => ['-', '-', '-'])) ::
     t.rows.map (fun r => pipeLine (r.map cellToStr)))

/-- The body of the loop in `clean_markdown_lines` for one line: lines
containing a pipe are split on `|`, each part stripped, and rejoined. -/
def cleanLine (line : Str) : Str :=
  if '|' ∈ line then pyJoin ['|'] ((splitOnChar '|' line).map strip) else line

/-- `clean_markdown_lines` (`ex2md.py` lines 101-112). -/
def clean_markdown_lines (markdown_array : List Str) : List Str :=
  markdown_array.map cleanLine

/-- `convert_to_markdown_array` (`ex2md.py` lines 114-118): fill
missing cells, escape line breaks, render, split the rendered string on
line breaks, clean each line. -/
def convert_to_markdown_array (df : Table) : List Str :=
  clean_markdown_lines (splitOnChar '\n' (tabulate_pipe (escape_newlines (fillna df))))

/-- Number of line-break characters in a string. -/
def countNl : Str → Nat
  | [] => 0
  | c :: cs => (if c = '\n' then 1 else 0) + countNl cs

/-- Number of (non-overlapping, leftmost-first) occurrences of the
escape marker `'<br>'` in a string, as Python `s.count('<br>')`. -/
def countBr : Str → Nat
  | '<' :: 'b' :: 'r' :: '>' :: rest => 1 + countBr rest
  | _ :: cs => countBr cs
  | [] => 0

/-- Whether `p` occurs as a contiguous substring, as Python `p in s`. -/
def hasSub (p : Str) : Str → Bool
  | [] => p.isEmpty
  | c :: cs => p.isPrefixOf (c :: cs) || hasSub p cs

/-- The inverse escape, Python `s.replace('<br>', '\n')`: every
occurrence of the marker becomes a line break again. -/
def unescapeBr : Str → Str
  | '<' :: 'b' :: 'r' :: '>' :: rest => '\n' :: unescapeBr rest
  | c :: cs => c :: unescapeBr cs
  | [] => []

/-! ## OutputSink: `save_markdown` and `post_markdown_to_api` -/

/-- Observable side effects of the sink. -/
inductive Effect where
  | fileWrite (path : Str) (content : Str)
  | apiPost (title : Str) (content : Str) (ok : Bool)
deriving DecidableEq, Repr

/-- The log messages the core emits, abstracted to their identity. -/
inductive LogEntry where
  | infoSaved (file : Str)
  | infoPosted (title : Str)
  | errPost (title : Str)
  | errSheetRead (sheet : Sum Int Str)
  | errSheetMemory (sheet : Sum Int Str)
  | errSheetUnexpected (sheet : Sum Int Str)
  | errFileNotFound
  | errUnexpected
deriving DecidableEq, Repr

/-- The Python exception classes the driver distinguishes. -/
inductive PyErr where
  | xlrd | memory | indexError | valueError | fileNotFound | other
deriving DecidableEq, Repr

/-- Effects and logs produced by a piece of the program. -/
structure Out where
  effects : List Effect
  logs : List LogEntry
deriving DecidableEq, Repr

/-- Concatenation of outputs, in program order. -/
def Out.append (a b : Out) : Out := ⟨a.effects ++ b.effects, a.logs ++ b.logs⟩

/-- Python `os.path.basename`. -/
def pyBasename (p : Str) : Str := (p.reverse.takeWhile (fun c => c ≠ '/')).reverse

/-- Replacement-mode encoding: characters the target encoding cannot
represent are replaced by a placeholder character. -/
def encodeReplace (encodable : Char → Bool) (s : Str) : Str :=
  s.map (fun c => if encodable c then c else '?')

/-- Python `open(path, 'w', encoding=enc, errors=...)` plus `f.write`:
with `errors='replace'` every unencodable character is replaced and the
write always succeeds; with strict handling an unencodable character
raises `UnicodeEncodeError` (modelled as an error). -/
def pyOpenWrite (errorsReplace : Bool) (encodable : Char → Bool) (path content : Str) :
    Except PyErr Effect :=
  if errorsReplace then .ok (.fileWrite path (encodeReplace encodable content))
  else if content.all encodable then .ok (.fileWrite path content)
  else .error .other

/-- `post_markdown_to_api` (`ex2md.py` lines 80-95): attempt the HTTPS
POST; a `RequestException` is caught and logged as an error, a success
is logged as info — the function itself never raises, which is why its
result type has no error component.  `uploadOk` is the oracle for
whether the request succeeds. -/
def post_markdown_to_api (uploadOk : Str → Bool) (markdown_data file_name : Str) : Out :=
  if uploadOk file_name then
    ⟨[.apiPost file_name markdown_data true], [.infoPosted file_name]⟩
  else
    ⟨[.apiPost file_name markdown_data false], [.errPost file_name]⟩

/-- `save_markdown` (`ex2md.py` lines 121-129): join the lines, write a
local file when `save_as_file or not upload` (with `errors='replace'`),
then POST when `upload`. -/
def save_markdown (encodable : Char → Bool) (uploadOk : Str → Bool)
    (markdown_array : List Str) (output_file : Str) (upload save_as_file : Bool) :
    Except PyErr Out := do
  let markdown_data := pyJoin ['\n'] markdown_array
  let fileOut ←
    if save_as_file || !upload then do
      let eff ← pyOpenWrite true encodable output_file markdown_data
      pure (⟨[eff], [.infoSaved output_file]⟩ : Out)
    else pure (⟨[], []⟩ : Out)
  let postOut :=
    if upload then post_markdown_to_api uploadOk markdown_data (pyBasename output_file)
    else (⟨[], []⟩ : Out)
  pure (fileOut.append postOut)

/-! ## BatchDriver: `process_excel_to_markdown` -/

/-- The open workbook (`pd.ExcelFile`): its ordered sheet-name list and
the reader (`pd.read_excel` on this handle), which may raise. -/
structure Workbook where
  sheet_names : List Str
  read : Str → Option RangeParams → Except PyErr Table

/-- Python list indexing `l[i]` with negative-index semantics: a
negative `i` counts from the end; out of bounds on either side is an
`IndexError`, modelled as `none`. -/
def pyGet {α : Type} (l : List α) (i : Int) : Option α :=
  if 0 ≤ i then l.get? i.toNat
  else if (-i).toNat ≤ l.length then l.get? (l.length - (-i).toNat) else none

/-- The numeric resolution step `xls.sheet_names[sheet_name - 1]`
(`ex2md.py` line 141). -/
def resolve_sheet (names : List Str) (i : Int) : Option Str := pyGet names (i - 1)

/-- The body of the per-sheet loop (`ex2md.py` lines 137-149) up to and
including `save_markdown`, with exceptions propagated explicitly; an
error carries the value the `sheet_name` variable has at the moment of
the raise, because the except-arms log that value. -/
def pSheetBody (encodable : Char → Bool) (uploadOk : Str → Bool) (wb : Workbook)
    (sp : SheetSpec) (output_file : Str) (upload save_as_file : Bool) :
    Except (PyErr × Sum Int Str) Out :=
  let resolved : Except (PyErr × Sum Int Str) Str :=
    match sp.sheet with
    | .inl i =>
      match resolve_sheet wb.sheet_names i with
      | some n => .ok n
      | none => .error (.indexError, .inl i)
    | .inr n => .ok n
  match resolved with
  | .error e => .error e
  | .ok name =>
    let dfE : Except PyErr Table :=
      if sp.range ≠ [] then
        match excel_range_to_params sp.range with
        | some params => wb.read name (some params)
        | none => .error .valueError
      else wb.read name none
    match dfE with
    | .error e => .error (e, .inr name)
    | .ok df =>
      let markdown_array := convert_to_markdown_array df
      let sheet_output_file := output_file ++ '_' :: name
      match save_markdown encodable uploadOk markdown_array sheet_output_file upload save_as_file with
      | .error e => .error (e, .inr name)
      | .ok out => .ok out

/-- The three per-sheet except-arms (`ex2md.py` lines 150-155): a
reader (`XLRDError`) failure, a `MemoryError`, and every other
`Exception` each produce one error log naming the sheet. -/
def catchSheet : PyErr × Sum Int Str → LogEntry
  | (.xlrd, sheet) => .errSheetRead sheet
  | (.memory, sheet) => .errSheetMemory sheet
  | (_, sheet) => .errSheetUnexpected sheet

/-- One iteration of the per-sheet loop including its try/except: a
failure contributes exactly one error log and no effects. -/
def perSheet (encodable : Char → Bool) (uploadOk : Str → Bool) (wb : Workbook)
    (sp : SheetSpec) (output_file : Str) (upload save_as_file : Bool) : Out :=
  match pSheetBody encodable uploadOk wb sp output_file upload save_as_file with
  | .ok out => out
  | .error e => ⟨[], [catchSheet e]⟩

/-- The per-sheet loop over the spec list, in order. -/
def processLoop (encodable : Char → Bool) (uploadOk : Str → Bool) (wb : Workbook)
    (output_file : Str) (upload save_as_file : Bool) : List SheetSpec → Out
  | [] => ⟨[], []⟩
  | sp :: rest =>
    (perSheet encodable uploadOk wb sp output_file upload save_as_file).append
      (processLoop encodable uploadOk wb output_file upload save_as_file rest)

/-- `process_excel_to_markdown` (`ex2md.py` lines 132-159): open the
workbook (`openWb` is the outcome of `pd.ExcelFile(input_file)`); an
open failure is caught by the outer except-arms and logged, producing
no per-sheet output; otherwise run the per-sheet loop.  The function is
total: the driver itself never raises. -/
def process_excel_to_markdown (openWb : Except PyErr Workbook) (encodable : Char → Bool)
    (uploadOk : Str → Bool) (output_file : Str) (sheets : List SheetSpec)
    (upload save_as_file : Bool) : Out :=
  match openWb with
  | .error .fileNotFound => ⟨[], [.errFileNotFound]⟩
  | .error _ => ⟨[], [.errUnexpected]⟩
  | .ok wb => processLoop encodable uploadOk wb output_file upload save_as_file sheets

/-! ## Concrete test fixtures used by witnesses -/

/-- An encoding that can represent every character. -/
def encAll : Char → Bool := fun _ => true

/-- An upload oracle where every POST succeeds. -/
def upOkAll : Str → Bool := fun _ => true

/-- An upload oracle where every POST fails. -/
def upFailAll : Str → Bool := fun _ => false

/-- A one-column, one-row table. -/
def testTable : Table := ⟨[['h']], [[Cell.str ['x']]]⟩

/-- A workbook with three sheets `A`, `B`, `C`; reading any other sheet
name raises. -/
def testWb : Workbook :=
  ⟨[['A'], ['B'], ['C']],
   fun name _ =>
     if name = ['A'] ∨ name = ['B'] ∨ name = ['C'] then .ok testTable else .error .other⟩

/-! ## Lemmas: splitting, joining, stripping -/

theorem splitOnChar_ne_nil (sep : Char) (l : Str) : splitOnChar sep l ≠ [] := by
  cases l with
  | nil => simp [splitOnChar]
  | cons c cs =>
    simp only [splitOnChar]
    split <;> split <;> simp

theorem splitOnChar_cons_eq (sep c : Char) (cs p : Str) (ps : List Str)
    (h : splitOnChar sep cs = p :: ps) :
    splitOnChar sep (c :: cs) =
      if c = sep then [] :: p :: ps else (c :: p) :: ps := by
  simp only [splitOnChar, h]

theorem splitOnChar_exists (sep : Char) (cs : Str) :
    ∃ p ps, splitOnChar sep cs = p :: ps := by
  rcases h : splitOnChar sep cs with _ | ⟨p, ps⟩
  · exact absurd h (splitOnChar_ne_nil sep cs)
  · exact ⟨p, ps, rfl⟩

theorem not_mem_of_mem_splitOnChar (sep : Char) (l : Str) :
    ∀ p ∈ splitOnChar sep l, sep ∉ p := by
  induction l with
  | nil =>
    intro p hp
    simp only [splitOnChar, List.mem_singleton] at hp
    subst hp; simp
  | cons c cs ih =>
    intro p hp
    obtain ⟨q, qs, h⟩ := splitOnChar_exists sep cs
    rw [splitOnChar_cons_eq sep c cs q qs h] at hp
    by_cases hc : c = sep
    · rw [if_pos hc, List.mem_cons] at hp
      rcases hp with rfl | hp
      · simp
      · exact ih p (h ▸ hp)
    · rw [if_neg hc, List.mem_cons] at hp
      rcases hp with rfl | hp
      · intro hmem
        rcases List.mem_cons.mp hmem with hmem | hmem
        · exact hc hmem.symm
        · exact ih q (h ▸ List.mem_cons_self q qs) hmem
      · exact ih p (h ▸ List.mem_cons_of_mem q hp)

theorem mem_of_mem_splitOnChar {sep : Char} {l : Str} {c : Char} :
    ∀ p ∈ splitOnChar sep l, c ∈ p → c ∈ l := by
  induction l with
  | nil =>
    intro p hp hc
    simp only [splitOnChar, List.mem_singleton] at hp
    subst hp; simp at hc
  | cons a as ih =>
    intro p hp hc
    obtain ⟨q, qs, h⟩ := splitOnChar_exists sep as
    rw [splitOnChar_cons_eq sep a as q qs h] at hp
    by_cases ha : a = sep
    · rw [if_pos ha, List.mem_cons] at hp
      rcases hp with rfl | hp
      · simp at hc
      · exact List.mem_cons_of_mem a (ih p (h ▸ hp) hc)
    · rw [if_neg ha, List.mem_cons] at hp
      rcases hp with rfl | hp
      · rcases List.mem_cons.mp hc with rfl | hc
        · exact List.mem_cons_self c as
        · exact List.mem_cons_of_mem a (ih q (h ▸ List.mem_cons_self q qs) hc)
      · exact List.mem_cons_of_mem a (ih p (h ▸ List.mem_cons_of_mem q hp) hc)

theorem splitOnChar_of_not_mem {sep : Char} {p : Str} (h : sep ∉ p) :
    splitOnChar sep p = [p] := by
  induction p with
  | nil => simp [splitOnChar]
  | cons c cs ih =>
    simp only [List.mem_cons, not_or] at h
    rw [splitOnChar_cons_eq sep c cs cs [] (ih h.2),
      if_neg (fun hh => h.1 hh.symm)]

theorem splitOnChar_sep_cons (sep : Char) (l : Str) :
    splitOnChar sep (sep :: l) = [] :: splitOnChar sep l := by
  obtain ⟨p, ps, h⟩ := splitOnChar_exists sep l
  rw [splitOnChar_cons_eq sep sep l p ps h, if_pos rfl, h]

theorem splitOnChar_append_sep {sep : Char} {p : Str} (rest : Str) (h : sep ∉ p) :
    splitOnChar sep (p ++ sep :: rest) = p :: splitOnChar sep rest := by
  induction p with
  | nil => simpa using splitOnChar_sep_cons sep rest
  | cons c cs ih =>
    simp only [List.mem_cons, not_or] at h
    rw [List.cons_append]
    obtain ⟨q, qs, hq⟩ := splitOnChar_exists sep rest
    have hcs : splitOnChar sep (cs ++ sep :: rest) = cs :: q :: qs := by
      rw [ih h.2, hq]
    rw [splitOnChar_cons_eq sep c _ _ _ hcs, if_neg (fun hh => h.1 hh.symm), hq]

theorem splitOnChar_pyJoin {sep : Char} {ps : List Str} (hne : ps ≠ [])
    (h : ∀ p ∈ ps, sep ∉ p) : splitOnChar sep (pyJoin [sep] ps) = ps := by
  induction ps with
  | nil => exact absurd rfl hne
  | cons p ps ih =>
    cases ps with
    | nil => simpa [pyJoin] using splitOnChar_of_not_mem (h p (List.mem_cons_self p []))
    | cons q qs =>
      have hp : sep ∉ p := h p (List.mem_cons_self p _)
      have hrest : ∀ r ∈ q :: qs, sep ∉ r := fun r hr => h r (List.mem_cons_of_mem p hr)
      calc splitOnChar sep (pyJoin [sep] (p :: q :: qs))
          = splitOnChar sep (p ++ sep :: pyJoin [sep] (q :: qs)) := by
            simp [pyJoin]
        _ = p :: splitOnChar sep (pyJoin [sep] (q :: qs)) :=
            splitOnChar_append_sep _ hp
        _ = p :: (q :: qs) := by rw [ih (by simp) hrest]

theorem two_le_length_splitOnChar {sep : Char} {l : Str} (h : sep ∈ l) :
    2 ≤ (splitOnChar sep l).length := by
  induction l with
  | nil => simp at h
  | cons c cs ih =>
    obtain ⟨p, ps, hs⟩ := splitOnChar_exists sep cs
    rw [splitOnChar_cons_eq sep c cs p ps hs]
    by_cases hc : c = sep
    · rw [if_pos hc]; simp
    · rw [if_neg hc]
      rcases List.mem_cons.mp h with h | h
      · exact absurd h.symm hc
      · have := ih h
        rw [hs] at this
        simp only [List.length_cons] at this ⊢
        omega

theorem sep_mem_pyJoin {sep : Char} : ∀ {ps : List Str}, 2 ≤ ps.length → sep ∈ pyJoin [sep] ps
  | [], h => absurd h (by simp)
  | [_], h => absurd h (by simp)
  | _ :: _ :: _, _ => by simp [pyJoin]

theorem mem_of_mem_pyJoin {sep : Str} {ps : List Str} {c : Char}
    (h : c ∈ pyJoin sep ps) : c ∈ sep ∨ ∃ p ∈ ps, c ∈ p := by
  induction ps with
  | nil => simp [pyJoin] at h
  | cons p ps ih =>
    cases ps with
    | nil =>
      simp only [pyJoin] at h
      exact Or.inr ⟨p, List.mem_cons_self p [], h⟩
    | cons q qs =>
      simp only [pyJoin, List.append_assoc, List.mem_append] at h
      rcases h with h | h | h
      · exact Or.inr ⟨p, List.mem_cons_self p _, h⟩
      · exact Or.inl h
      · rcases ih h with h | ⟨r, hr, hcr⟩
        · exact Or.inl h
        · exact Or.inr ⟨r, List.mem_cons_of_mem p hr, hcr⟩

theorem strip_eq_rdropWhile (s : Str) :
    strip s = List.rdropWhile Char.isWhitespace (s.dropWhile Char.isWhitespace) := rfl

theorem strip_strip (s : Str) : strip (strip s) = strip s := by
  rw [strip_eq_rdropWhile, strip_eq_rdropWhile]
  set t := s.dropWhile Char.isWhitespace with ht
  have h1 : (List.rdropWhile Char.isWhitespace t).dropWhile Char.isWhitespace
      = List.rdropWhile Char.isWhitespace t := by
    rw [List.dropWhile_eq_self_iff]
    intro hl
    have hpre := List.rdropWhile_prefix Char.isWhitespace t
    have hlen : 0 < t.length := lt_of_lt_of_le hl hpre.length_le
    have hget := hpre.getElem hl
    simp only [List.get_eq_getElem]
    rw [hget]
    have := List.dropWhile_get_zero_not Char.isWhitespace s (by rw [← ht]; exact hlen)
    simpa [← ht] using this
  rw [h1, List.rdropWhile_idempotent]

theorem mem_strip {s : Str} {c : Char} (h : c ∈ strip s) : c ∈ s := by
  rw [strip_eq_rdropWhile] at h
  have h1 := (List.rdropWhile_prefix Char.isWhitespace
    (s.dropWhile Char.isWhitespace)).subset h
  exact (List.dropWhile_suffix Char.isWhitespace).subset h1

theorem not_mem_strip {s : Str} {c : Char} (h : c ∉ s) : c ∉ strip s :=
  fun hc => h (mem_strip hc)

/-! ## C9: idempotence of `clean_markdown_lines` -/

theorem cleanLine_cleanLine (line : Str) : cleanLine (cleanLine line) = cleanLine line := by
  by_cases h : '|' ∈ line
  · have hparts : ∀ p ∈ (splitOnChar '|' line).map strip, '|' ∉ p := by
      intro p hp
      rcases List.mem_map.mp hp with ⟨q, hq, rfl⟩
      exact not_mem_strip (not_mem_of_mem_splitOnChar '|' line q hq)
    have hne : (splitOnChar '|' line).map strip ≠ [] := by
      simpa using splitOnChar_ne_nil '|' line
    have hlen : 2 ≤ ((splitOnChar '|' line).map strip).length := by
      simpa using two_le_length_splitOnChar h
    have hcl : cleanLine line = pyJoin ['|'] ((splitOnChar '|' line).map strip) := by
      simp only [cleanLine, if_pos h]
    rw [hcl]
    have hmem : '|' ∈ pyJoin ['|'] ((splitOnChar '|' line).map strip) :=
      sep_mem_pyJoin hlen
    simp only [cleanLine, if_pos hmem]
    rw [splitOnChar_pyJoin hne hparts, List.map_map]
    exact congrArg (pyJoin ['|']) (List.map_congr_left fun p _ => strip_strip p)
  · have hid : cleanLine line = line := by simp only [cleanLine, if_neg h]
    rw [hid, hid]

/-- C9.  Whitespace-trimming idempotence: applying the per-line
pipe-split/trim/rejoin post-processing (`clean_markdown_lines`) a second
time produces output identical to applying it once. -/
theorem clean_markdown_lines_idem (lines : List Str) :
    clean_markdown_lines (clean_markdown_lines lines) = clean_markdown_lines lines := by
  simp only [clean_markdown_lines, List.map_map]
  exact List.map_congr_left fun line _ => cleanLine_cleanLine line

/-! ## Lemmas: the range-string scan -/

theorem isDigit_false_of_isAlpha {c : Char} (h : c.isAlpha = true) : c.isDigit = false := by
  simp only [Char.isAlpha, Char.isUpper, Char.isLower, Char.isDigit] at *
  rcases Bool.or_eq_true_iff.mp h with h1 | h1 <;>
    · rw [Bool.and_eq_true] at h1
      rcases h1 with ⟨a, b⟩
      rw [Bool.and_eq_false_iff]
      simp only [decide_eq_true_eq, Char.le_def, UInt32.le_def, Fin.le_def, BitVec.le_def,
        show (UInt32.toBitVec 65).toNat = 65 from rfl, show (UInt32.toBitVec 90).toNat = 90 from rfl,
        show (UInt32.toBitVec 97).toNat = 97 from rfl,
        show (UInt32.toBitVec 122).toNat = 122 from rfl] at a b
      right
      simp only [decide_eq_false_iff_not, Char.le_def, UInt32.le_def, Fin.le_def, BitVec.le_def,
        show (UInt32.toBitVec 57).toNat = 57 from rfl]
      omega

theorem ne_colon_of_isAlpha {c : Char} (h : c.isAlpha = true) : c ≠ ':' := by
  intro hc
  subst hc
  exact absurd h (by decide)

theorem ne_colon_of_isDigit {c : Char} (h : c.isDigit = true) : c ≠ ':' := by
  intro hc
  subst hc
  exact absurd h (by decide)

theorem scanRange_append (a b : Str) (st : ScanState) :
    scanRange (a ++ b) st = scanRange b (scanRange a st) := by
  induction a generalizing st with
  | nil => rfl
  | cons c cs ih =>
    simp only [List.cons_append, scanRange]
    exact ih (scanStep st c)

theorem scanRange_pec_true (s : Str) : ∀ sc sr ec er : Str,
    scanRange s ⟨sc, sr, ec, er, true⟩ =
      ⟨sc, sr, ec ++ s.filter (fun c => !c.isDigit && c != ':'),
        er ++ s.filter Char.isDigit, true⟩ := by
  induction s with
  | nil => intro sc sr ec er; simp [scanRange]
  | cons c cs ih =>
    intro sc sr ec er
    by_cases hd : c.isDigit = true
    · have hstep : scanStep ⟨sc, sr, ec, er, true⟩ c = ⟨sc, sr, ec, er ++ [c], true⟩ := by
        simp [scanStep, hd]
      rw [show scanRange (c :: cs) ⟨sc, sr, ec, er, true⟩
          = scanRange cs (scanStep ⟨sc, sr, ec, er, true⟩ c) from rfl, hstep, ih]
      simp [List.filter_cons, hd]
    · by_cases hc : c = ':'
      · subst hc
        have hstep : scanStep ⟨sc, sr, ec, er, true⟩ ':' = ⟨sc, sr, ec, er, true⟩ := by
          simp [scanStep]
        rw [show scanRange (':' :: cs) ⟨sc, sr, ec, er, true⟩
            = scanRange cs (scanStep ⟨sc, sr, ec, er, true⟩ ':') from rfl, hstep, ih]
        simp [List.filter_cons]
      · have hstep : scanStep ⟨sc, sr, ec, er, true⟩ c = ⟨sc, sr, ec ++ [c], er, true⟩ := by
          simp [scanStep, hd, hc]
        rw [show scanRange (c :: cs) ⟨sc, sr, ec, er, true⟩
            = scanRange cs (scanStep ⟨sc, sr, ec, er, true⟩ c) from rfl, hstep, ih]
        simp [List.filter_cons, hd, hc]

theorem scanRange_pec_false (s : Str) (hnc : ':' ∉ s) : ∀ sc sr ec er : Str,
    scanRange s ⟨sc, sr, ec, er, false⟩ =
      ⟨sc ++ s.filter (fun c => !c.isDigit), sr ++ s.filter Char.isDigit, ec, er, false⟩ := by
  induction s with
  | nil => intro sc sr ec er; simp [scanRange]
  | cons c cs ih =>
    intro sc sr ec er
    have hc : c ≠ ':' := fun h => hnc (h ▸ List.mem_cons_self c cs)
    have hcs : ':' ∉ cs := fun h => hnc (List.mem_cons_of_mem c h)
    by_cases hd : c.isDigit = true
    · have hstep : scanStep ⟨sc, sr, ec, er, false⟩ c = ⟨sc, sr ++ [c], ec, er, false⟩ := by
        simp [scanStep, hd]
      rw [show scanRange (c :: cs) ⟨sc, sr, ec, er, false⟩
          = scanRange cs (scanStep ⟨sc, sr, ec, er, false⟩ c) from rfl, hstep, ih hcs]
      simp [List.filter_cons, hd]
    · have hstep : scanStep ⟨sc, sr, ec, er, false⟩ c = ⟨sc ++ [c], sr, ec, er, false⟩ := by
        simp [scanStep, hd, hc]
      rw [show scanRange (c :: cs) ⟨sc, sr, ec, er, false⟩
          = scanRange cs (scanStep ⟨sc, sr, ec, er, false⟩ c) from rfl, hstep, ih hcs]
      simp [List.filter_cons, hd]

theorem scanRange_split (p rest : Str) (hp : ':' ∉ p) :
    scanRange (p ++ ':' :: rest) ⟨[], [], [], [], false⟩ =
      ⟨p.filter (fun c => !c.isDigit), p.filter Char.isDigit,
       rest.filter (fun c => !c.isDigit && c != ':'), rest.filter Char.isDigit, true⟩ := by
  have h1 : scanRange p ⟨[], [], [], [], false⟩
      = ⟨p.filter (fun c => !c.isDigit), p.filter Char.isDigit, [], [], false⟩ := by
    have := scanRange_pec_false p hp [] [] [] []
    simpa using this
  rw [scanRange_append, h1,
    show scanRange (':' :: rest)
        ⟨p.filter (fun c => !c.isDigit), p.filter Char.isDigit, [], [], false⟩
      = scanRange rest (scanStep
        ⟨p.filter (fun c => !c.isDigit), p.filter Char.isDigit, [], [], false⟩ ':') from rfl,
    show scanStep ⟨p.filter (fun c => !c.isDigit), p.filter Char.isDigit, [], [], false⟩ ':'
      = ⟨p.filter (fun c => !c.isDigit), p.filter Char.isDigit, [], [], true⟩ from by
        simp [scanStep],
    scanRange_pec_true]
  simp

theorem pyInt_digits {l : Str} (hne : l ≠ []) (hd : ∀ c ∈ l, c.isDigit = true) :
    pyInt l = some (digitsVal l : Int) := by
  cases l with
  | nil => exact absurd rfl hne
  | cons c cs =>
    have hc : c.isDigit = true := hd c (List.mem_cons_self c cs)
    have hminus : c ≠ '-' := by intro h; rw [h] at hc; exact absurd hc (by decide)
    have hplus : c ≠ '+' := by intro h; rw [h] at hc; exact absurd hc (by decide)
    unfold pyInt
    split
    · rename_i rest heq
      injection heq with h1 h2
      exact absurd h1 hminus
    · rename_i rest heq
      injection heq with h1 h2
      exact absurd h1 hplus
    · rw [if_pos]
      refine ⟨by simp, ?_⟩
      rw [List.all_eq_true]
      exact hd

theorem pyInt_nil : pyInt [] = none := rfl

theorem pyInt_filter_digit_none (l : Str) :
    pyInt (l.filter Char.isDigit) = none ↔ l.any Char.isDigit = false := by
  rcases h : l.filter Char.isDigit with _ | ⟨c, cs⟩
  · rw [pyInt_nil]
    simp only [true_iff]
    rw [List.filter_eq_nil_iff] at h
    rw [List.any_eq_false]
    exact fun a ha => h a ha
  · have hne : (c :: cs : Str) ≠ [] := by simp
    have hd : ∀ x ∈ (c :: cs : Str), x.isDigit = true := by
      intro x hx
      exact List.of_mem_filter (h ▸ hx)
    rw [pyInt_digits hne hd]
    simp only [reduceCtorEq, false_iff]
    intro hany
    rw [List.any_eq_false] at hany
    have hcmem : c ∈ l.filter Char.isDigit := h ▸ List.mem_cons_self c cs
    exact hany c (List.mem_of_mem_filter hcmem) (List.of_mem_filter hcmem)

/-! ## C2 and C5: the range parser -/

theorem filter_digit_alpha_digits {ca rd : Str} (hca : ∀ c ∈ ca, c.isAlpha = true)
    (hrd : ∀ c ∈ rd, c.isDigit = true) : (ca ++ rd).filter Char.isDigit = rd := by
  rw [List.filter_append,
    List.filter_eq_nil_iff.mpr (fun a ha => by rw [isDigit_false_of_isAlpha (hca a ha)]; simp),
    List.filter_eq_self.mpr hrd, List.nil_append]

theorem filter_nondigit_alpha_digits {ca rd : Str} (hca : ∀ c ∈ ca, c.isAlpha = true)
    (hrd : ∀ c ∈ rd, c.isDigit = true) : (ca ++ rd).filter (fun c => !c.isDigit) = ca := by
  rw [List.filter_append,
    List.filter_eq_self.mpr (fun a ha => by rw [isDigit_false_of_isAlpha (hca a ha)]; simp),
    List.filter_eq_nil_iff.mpr (fun a ha => by rw [hrd a ha]; simp), List.append_nil]

theorem filter_endcol_alpha_digits {ca rd : Str} (hca : ∀ c ∈ ca, c.isAlpha = true)
    (hrd : ∀ c ∈ rd, c.isDigit = true) :
    (ca ++ rd).filter (fun c => !c.isDigit && c != ':') = ca := by
  rw [List.filter_append,
    List.filter_eq_self.mpr (fun a ha => by
      rw [isDigit_false_of_isAlpha (hca a ha)]
      simp only [Bool.not_false, Bool.true_and, bne_iff_ne, ne_eq, decide_eq_true_eq]
      exact ne_colon_of_isAlpha (hca a ha)),
    List.filter_eq_nil_iff.mpr (fun a ha => by rw [hrd a ha]; simp), List.append_nil]

/-- C2.  Range-parse correctness: for every range string of the form
`<letters><digits>:<letters><digits>`, the parser returns the column
range `<startCol>:<endCol>`, `skiprows = startRow − 1` and
`nrows = endRow − skiprows`. -/
theorem excel_range_to_params_wellformed (c1 r1 c2 r2 : Str)
    (_hc1 : c1 ≠ []) (hc1a : ∀ c ∈ c1, c.isAlpha = true)
    (hr1 : r1 ≠ []) (hr1d : ∀ c ∈ r1, c.isDigit = true)
    (_hc2 : c2 ≠ []) (hc2a : ∀ c ∈ c2, c.isAlpha = true)
    (hr2 : r2 ≠ []) (hr2d : ∀ c ∈ r2, c.isDigit = true) :
    excel_range_to_params (c1 ++ r1 ++ ':' :: (c2 ++ r2)) =
      some ⟨c1 ++ ':' :: c2, (digitsVal r1 : Int) - 1,
        (digitsVal r2 : Int) - ((digitsVal r1 : Int) - 1)⟩ := by
  have hpcolon : ':' ∉ c1 ++ r1 := by
    intro h
    rcases List.mem_append.mp h with h | h
    · exact ne_colon_of_isAlpha (hc1a ':' h) rfl
    · exact ne_colon_of_isDigit (hr1d ':' h) rfl
  have hsplit := scanRange_split (c1 ++ r1) (c2 ++ r2) hpcolon
  unfold excel_range_to_params
  rw [hsplit]
  simp only [filter_digit_alpha_digits hc1a hr1d, filter_nondigit_alpha_digits hc1a hr1d,
    filter_digit_alpha_digits hc2a hr2d, filter_endcol_alpha_digits hc2a hr2d,
    pyInt_digits hr1 hr1d, pyInt_digits hr2 hr2d]

/-- Witness for C2 at the spec's two concrete examples. -/
theorem excel_range_to_params_wellformed_witness :
    excel_range_to_params ['A', '1', ':', 'D', '1', '0'] = some ⟨['A', ':', 'D'], 0, 10⟩ ∧
    excel_range_to_params ['B', '5', ':', 'B', '2', '0'] = some ⟨['B', ':', 'B'], 4, 16⟩ := by
  constructor
  · exact (excel_range_to_params_wellformed ['A'] ['1'] ['D'] ['1', '0']
      (by decide) (by decide) (by decide) (by decide)
      (by decide) (by decide) (by decide) (by decide)).trans (by decide)
  · exact (excel_range_to_params_wellformed ['B'] ['5'] ['B'] ['2', '0']
      (by decide) (by decide) (by decide) (by decide)
      (by decide) (by decide) (by decide) (by decide)).trans (by decide)

theorem excel_range_to_params_none_aux (s : Str) :
    excel_range_to_params s = none ↔
      pyInt (scanRange s ⟨[], [], [], [], false⟩).start_row = none ∨
      pyInt (scanRange s ⟨[], [], [], [], false⟩).end_row = none := by
  unfold excel_range_to_params
  rcases h1 : pyInt (scanRange s ⟨[], [], [], [], false⟩).start_row with _ | n1 <;>
    rcases h2 : pyInt (scanRange s ⟨[], [], [], [], false⟩).end_row with _ | n2 <;>
      simp [h1, h2]

/-- C5 counterexample: `'1A:2B'` does not match the pattern
`<letters><digits>:<letters><digits>`, yet the parser succeeds on it,
so the parser does not fail exactly on the non-matching strings. -/
theorem excel_range_to_params_succeeds_off_pattern :
    matchesRangePattern ['1', 'A', ':', '2', 'B'] = false ∧
    excel_range_to_params ['1', 'A', ':', '2', 'B'] = some ⟨['A', ':', 'B'], 0, 2⟩ := by
  constructor
  · rfl
  · rfl

/-- C5 (amended).  The range parser fails exactly when the part of the
string before the first `:` contains no digit, or the part after the
first `:` contains no digit; in particular `'A:D10'` (missing start
row) fails. -/
theorem excel_range_to_params_none_iff :
    (∀ s : Str, excel_range_to_params s = none ↔
      ((s.takeWhile (fun c => c != ':')).any Char.isDigit = false ∨
       ((s.dropWhile (fun c => c != ':')).drop 1).any Char.isDigit = false)) ∧
    excel_range_to_params ['A', ':', 'D', '1', '0'] = none := by
  constructor
  · intro s
    by_cases hcol : ':' ∈ s
    · have hdne : s.dropWhile (fun c => c != ':') ≠ [] := by
        intro h
        rw [List.dropWhile_eq_nil_iff] at h
        have := h ':' hcol
        simp at this
      have hdd : s.dropWhile (fun c => c != ':')
          = ':' :: (s.dropWhile (fun c => c != ':')).tail := by
        have hh := List.head_dropWhile_not (fun c => c != ':') s hdne
        have := List.head_cons_tail (s.dropWhile (fun c => c != ':')) hdne
        rw [← this]
        congr 1
        simpa using hh
      have hpcolon : ':' ∉ s.takeWhile (fun c => c != ':') := by
        intro h
        have := List.mem_takeWhile_imp h
        simp at this
      have hs : s.takeWhile (fun c => c != ':')
          ++ ':' :: (s.dropWhile (fun c => c != ':')).tail = s := by
        calc s.takeWhile (fun c => c != ':') ++ ':' :: (s.dropWhile (fun c => c != ':')).tail
            = s.takeWhile (fun c => c != ':') ++ s.dropWhile (fun c => c != ':') := by
              rw [← hdd]
          _ = s := List.takeWhile_append_dropWhile _ s
      have hscan : scanRange s ⟨[], [], [], [], false⟩ =
          ⟨(s.takeWhile (fun c => c != ':')).filter (fun c => !c.isDigit),
           (s.takeWhile (fun c => c != ':')).filter Char.isDigit,
           ((s.dropWhile (fun c => c != ':')).tail).filter (fun c => !c.isDigit && c != ':'),
           ((s.dropWhile (fun c => c != ':')).tail).filter Char.isDigit, true⟩ := by
        conv_lhs => rw [← hs]
        exact scanRange_split _ _ hpcolon
      rw [excel_range_to_params_none_aux, hscan, List.drop_one]
      simp only
      rw [pyInt_filter_digit_none, pyInt_filter_digit_none]
    · have htake : s.takeWhile (fun c => c != ':') = s :=
        List.takeWhile_eq_self_iff.mpr (fun x hx => by
          simp only [bne_iff_ne, ne_eq, decide_eq_true_eq]
          exact fun h => hcol (h ▸ hx))
      have hdropn : s.dropWhile (fun c => c != ':') = [] :=
        List.dropWhile_eq_nil_iff.mpr (fun x hx => by
          simp only [bne_iff_ne, ne_eq, decide_eq_true_eq]
          exact fun h => hcol (h ▸ hx))
      have hnone : excel_range_to_params s = none := by
        rw [excel_range_to_params_none_aux, scanRange_pec_false s hcol]
        right
        simp [pyInt_nil]
      rw [hnone, hdropn]
      simp
  · rfl

/-! ## Lemmas: escaping and unescaping line breaks -/

theorem replaceNl_nil : replaceNl [] = [] := rfl

theorem replaceNl_newline (cs : Str) :
    replaceNl ('\n' :: cs) = '<' :: 'b' :: 'r' :: '>' :: replaceNl cs := rfl

theorem replaceNl_cons_ne {c : Char} (cs : Str) (h : c ≠ '\n') :
    replaceNl (c :: cs) = c :: replaceNl cs := by
  simp [replaceNl, h]

theorem replaceNl_eq_cons {t : Str} {d : Char} {rest : Str} (hd : d ≠ '<')
    (h : replaceNl t = d :: rest) : ∃ t', t = d :: t' ∧ replaceNl t' = rest := by
  cases t with
  | nil => rw [replaceNl_nil] at h; exact absurd h (by simp)
  | cons c cs =>
    by_cases hc : c = '\n'
    · subst hc
      rw [replaceNl_newline] at h
      injection h with h1 h2
      exact absurd h1.symm hd
    · rw [replaceNl_cons_ne cs hc] at h
      injection h with h1 h2
      exact ⟨cs, by rw [h1], h2⟩

theorem marker_prefix_of_replace {cs rest : Str}
    (hshape : replaceNl cs = 'b' :: 'r' :: '>' :: rest) :
    ∃ t3, cs = 'b' :: 'r' :: '>' :: t3 ∧ replaceNl t3 = rest := by
  obtain ⟨t1, rfl, hr1⟩ := replaceNl_eq_cons (by decide) hshape
  obtain ⟨t2, rfl, hr2⟩ := replaceNl_eq_cons (by decide) hr1
  obtain ⟨t3, rfl, hr3⟩ := replaceNl_eq_cons (by decide) hr2
  exact ⟨t3, rfl, hr3⟩

theorem unescapeBr_marker (rest : Str) :
    unescapeBr ('<' :: 'b' :: 'r' :: '>' :: rest) = '\n' :: unescapeBr rest := rfl

theorem unescapeBr_cons (c : Char) (cs : Str)
    (h : ∀ rest, c :: cs ≠ '<' :: 'b' :: 'r' :: '>' :: rest) :
    unescapeBr (c :: cs) = c :: unescapeBr cs := by
  conv_lhs => unfold unescapeBr
  split
  · rename_i rest heq
    exact absurd heq (h rest)
  · rename_i c2 cs2 hx heq
    injection heq with h1 h2
    rw [h1, h2]
  · rename_i heq
    exact absurd heq (by simp)

theorem countBr_marker (rest : Str) :
    countBr ('<' :: 'b' :: 'r' :: '>' :: rest) = 1 + countBr rest := rfl

theorem countBr_cons (c : Char) (cs : Str)
    (h : ∀ rest, c :: cs ≠ '<' :: 'b' :: 'r' :: '>' :: rest) :
    countBr (c :: cs) = countBr cs := by
  conv_lhs => unfold countBr
  split
  · rename_i rest heq
    exact absurd heq (h rest)
  · rename_i c2 cs2 hx heq
    injection heq with h1 h2
    rw [h2]
  · rename_i heq
    exact absurd heq (by simp)

theorem hasSub_cons_eq (p : Str) (c : Char) (cs : Str) :
    hasSub p (c :: cs) = (p.isPrefixOf (c :: cs) || hasSub p cs) := rfl

theorem hasSub_false_tail {p : Str} {c : Char} {cs : Str}
    (h : hasSub p (c :: cs) = false) : hasSub p cs = false := by
  rw [hasSub_cons_eq, Bool.or_eq_false_iff] at h
  exact h.2

theorem hasSub_marker (t3 : Str) :
    hasSub brS ('<' :: 'b' :: 'r' :: '>' :: t3) = true := by
  rw [hasSub_cons_eq, Bool.or_eq_true_iff]
  left
  simp [brS, List.isPrefixOf]

theorem countNl_cons_ne {c : Char} (cs : Str) (h : c ≠ '\n') :
    countNl (c :: cs) = countNl cs := by
  simp [countNl, h]

theorem countNl_cons_nl (cs : Str) : countNl ('\n' :: cs) = 1 + countNl cs := by
  simp [countNl]

theorem countNl_append (a b : Str) : countNl (a ++ b) = countNl a + countNl b := by
  induction a with
  | nil => simp [countNl]
  | cons c cs ih =>
    simp only [List.cons_append, countNl, List.append_eq]
    rw [ih]
    omega

theorem countNl_replaceNl (s : Str) : countNl (replaceNl s) = 0 := by
  induction s with
  | nil => rfl
  | cons c cs ih =>
    by_cases hc : c = '\n'
    · subst hc
      rw [replaceNl_newline]
      simp only [countNl, ih]
      decide
    · rw [replaceNl_cons_ne cs hc]
      simp only [countNl, ih, if_neg hc]

theorem unescapeBr_replaceNl_aux :
    ∀ n, ∀ s : Str, s.length ≤ n → hasSub brS s = false → unescapeBr (replaceNl s) = s := by
  intro n
  induction n with
  | zero =>
    intro s hlen _
    have hs : s = [] := List.length_eq_zero.mp (Nat.le_zero.mp hlen)
    subst hs; rfl
  | succ n ih =>
    intro s hlen hsub
    cases s with
    | nil => rfl
    | cons c cs =>
      have hlcs : cs.length ≤ n := by
        simp only [List.length_cons] at hlen
        omega
      by_cases hc : c = '\n'
      · subst hc
        rw [replaceNl_newline, unescapeBr_marker,
          ih cs hlcs (hasSub_false_tail hsub)]
      · rw [replaceNl_cons_ne cs hc]
        by_cases hm : ∃ rest, c :: replaceNl cs = '<' :: 'b' :: 'r' :: '>' :: rest
        · exfalso
          obtain ⟨rest, hshape⟩ := hm
          injection hshape with h1 h2
          obtain ⟨t3, rfl, -⟩ := marker_prefix_of_replace h2
          subst h1
          rw [hasSub_marker] at hsub
          simp at hsub
        · push_neg at hm
          rw [unescapeBr_cons c _ hm, ih cs hlcs (hasSub_false_tail hsub)]

theorem countBr_replaceNl_aux :
    ∀ n, ∀ s : Str, s.length ≤ n → countBr (replaceNl s) = countNl s + countBr s := by
  intro n
  induction n with
  | zero =>
    intro s hlen
    have hs : s = [] := List.length_eq_zero.mp (Nat.le_zero.mp hlen)
    subst hs; rfl
  | succ n ih =>
    intro s hlen
    cases s with
    | nil => rfl
    | cons c cs =>
      have hlcs : cs.length ≤ n := by
        simp only [List.length_cons] at hlen
        omega
      by_cases hc : c = '\n'
      · subst hc
        rw [replaceNl_newline, countBr_marker, ih cs hlcs]
        have hnoteq : ∀ rest, ('\n' :: cs : Str) ≠ '<' :: 'b' :: 'r' :: '>' :: rest := by
          intro rest heq
          injection heq with h1 _
          exact absurd h1 (by decide)
        rw [countBr_cons '\n' cs hnoteq, countNl_cons_nl]
        omega
      · rw [replaceNl_cons_ne cs hc]
        by_cases hm : ∃ rest, c :: replaceNl cs = '<' :: 'b' :: 'r' :: '>' :: rest
        · obtain ⟨rest, hshape⟩ := hm
          injection hshape with h1 h2
          obtain ⟨t3, rfl, hrep⟩ := marker_prefix_of_replace h2
          subst h1
          have hl3 : t3.length ≤ n := by
            simp only [List.length_cons] at hlen hlcs ⊢
            omega
          have h3 : ∀ c3 ∈ ['b', 'r', '>'], c3 ≠ '\n' := by decide
          calc countBr ('<' :: replaceNl ('b' :: 'r' :: '>' :: t3))
              = countBr ('<' :: 'b' :: 'r' :: '>' :: replaceNl t3) := by
                rw [replaceNl_cons_ne _ (by decide), replaceNl_cons_ne _ (by decide),
                  replaceNl_cons_ne _ (by decide)]
            _ = 1 + countBr (replaceNl t3) := countBr_marker _
            _ = 1 + (countNl t3 + countBr t3) := by
                rw [ih t3 (by omega)]
            _ = countNl ('<' :: 'b' :: 'r' :: '>' :: t3)
                + countBr ('<' :: 'b' :: 'r' :: '>' :: t3) := by
                rw [countBr_marker, countNl_cons_ne _ (by decide), countNl_cons_ne _ (by decide),
                  countNl_cons_ne _ (by decide), countNl_cons_ne _ (by decide)]
                omega
        · push_neg at hm
          rw [countBr_cons c _ hm, ih cs hlcs]
          have hm2 : ∀ rest, (c :: cs : Str) ≠ '<' :: 'b' :: 'r' :: '>' :: rest := by
            intro rest heq
            injection heq with h1 h2
            subst h1 h2
            exact hm (replaceNl rest) (by
              rw [replaceNl_cons_ne _ (by decide), replaceNl_cons_ne _ (by decide),
                replaceNl_cons_ne _ (by decide)])
          rw [countBr_cons c cs hm2, countNl_cons_ne cs hc]

theorem nl_not_mem_cleanLine {y : Str} (h : '\n' ∉ y) : '\n' ∉ cleanLine y := by
  by_cases hp : '|' ∈ y
  · simp only [cleanLine, if_pos hp]
    intro hmem
    rcases mem_of_mem_pyJoin hmem with hmem | ⟨p, hpmem, hcp⟩
    · simp at hmem
    · rcases List.mem_map.mp hpmem with ⟨q, hq, rfl⟩
      exact h (mem_of_mem_splitOnChar q hq (mem_strip hcp))
  · simp only [cleanLine, if_neg hp]
    exact h

/-! ## C3: escaping totality -/

/-- C3.  Escaping totality: no rendered Markdown line contains a raw
line-break character; `escape_newlines` leaves no line break in a
string cell; and each original line break contributes exactly one
escape marker (`countBr` counts occurrences of `'<br>'`, `countNl`
counts line breaks; a cell that already contains the marker retains
those occurrences unchanged). -/
theorem escaping_total :
    (∀ df : Table,
      (convert_to_markdown_array df).all (fun line => decide ('\n' ∉ line)) = true) ∧
    (∀ s : Str, countNl (replaceNl s) = 0) ∧
    (∀ s : Str, countBr (replaceNl s) = countNl s + countBr s) := by
  refine ⟨?_, countNl_replaceNl, fun s => countBr_replaceNl_aux s.length s le_rfl⟩
  intro df
  rw [List.all_eq_true]
  intro line hline
  rw [decide_eq_true_iff]
  simp only [convert_to_markdown_array, clean_markdown_lines] at hline
  rcases List.mem_map.mp hline with ⟨y, hy, rfl⟩
  exact nl_not_mem_cleanLine (not_mem_of_mem_splitOnChar '\n' _ y hy)

/-! ## C6: round-trip of the escape marker -/

/-- C6 counterexample: a cell whose content is the literal marker
`'<br>'` is not recovered by unescaping the escaped cell, so rendering
is not lossless on such cells. -/
theorem unescape_escape_not_id :
    unescapeBr (replaceNl ['<', 'b', 'r', '>']) = ['\n'] ∧
    (['\n'] : Str) ≠ ['<', 'b', 'r', '>'] := by
  constructor
  · rfl
  · decide

/-- C6 (amended).  Rendering is deterministic (all rendering functions
are pure), and unescaping the escaped cell recovers the original
content exactly for every cell that does not already contain the
escape marker `'<br>'`. -/
theorem unescapeBr_replaceNl (s : Str) (h : hasSub brS s = false) :
    unescapeBr (replaceNl s) = s :=
  unescapeBr_replaceNl_aux s.length s le_rfl h

/-- Witness for C6 at a concrete marker-free cell with a line break. -/
theorem unescapeBr_replaceNl_witness :
    hasSub brS ['a', '\n', 'b'] = false ∧
    unescapeBr (replaceNl ['a', '\n', 'b']) = ['a', '\n', 'b'] :=
  ⟨by decide, unescapeBr_replaceNl ['a', '\n', 'b'] (by decide)⟩

/-! ## Lemmas: the selector loops -/

theorem traverseOpt_forall₂ {α β : Type} {f : α → Option β} {ts : List α} {ys : List β}
    (h : List.Forall₂ (fun t y => f t = some y) ts ys) : traverseOpt f ts = some ys := by
  induction h with
  | nil => rfl
  | cons hfa _ ih =>
    simp [traverseOpt, hfa, ih]

theorem traverseOpt_none {α β : Type} {f : α → Option β} {ts : List α}
    (h : ∃ t ∈ ts, f t = none) : traverseOpt f ts = none := by
  obtain ⟨t, ht, hft⟩ := h
  induction ts with
  | nil => simp at ht
  | cons a as ih =>
    rcases List.mem_cons.mp ht with rfl | ht
    · simp only [traverseOpt, hft]
    · rcases hfa : f a with _ | b
      · simp only [traverseOpt, hfa]
      · simp only [traverseOpt, hfa, ih ht]
        rfl

theorem parseNameToken_pair (n r : Str) (hn : '!' ∉ n) (hr : '!' ∉ r) :
    parseNameToken (n ++ '!' :: r) =
      if range_checker r then some ⟨Sum.inr (strip n), r⟩ else none := by
  unfold parseNameToken
  rw [if_pos (by simp : '!' ∈ n ++ '!' :: r), splitOnChar_append_sep r hn,
    splitOnChar_of_not_mem hr]

theorem parseNameToken_bare (t : Str) (ht : '!' ∉ t) :
    parseNameToken t = some ⟨Sum.inr (strip t), []⟩ := by
  unfold parseNameToken
  rw [if_neg ht]

/-! ## C7: the name selector -/

/-- C7.  Name-selector parse: a token `Name!Range` yields a `SheetSpec`
with that name and that range (provided the range passes
`range_checker`), a bare token yields a spec with that name and no
range; the whole comma-joined selector parses to the specs in token
order; and if any token's embedded range fails validation, the whole
parse fails with no partial list. -/
theorem parse_sheet_names_spec :
    (∀ n r : Str, '!' ∉ n → '!' ∉ r → strip n = n → range_checker r = true →
      parseNameToken (n ++ '!' :: r) = some ⟨Sum.inr n, r⟩) ∧
    (∀ t : Str, '!' ∉ t → strip t = t →
      parseNameToken t = some ⟨Sum.inr t, []⟩) ∧
    (∀ n r : Str, '!' ∉ n → '!' ∉ r → range_checker r = false →
      parseNameToken (n ++ '!' :: r) = none) ∧
    (∀ (toks : List Str) (specs : List SheetSpec), toks ≠ [] → (∀ t ∈ toks, ',' ∉ t) →
      List.Forall₂ (fun t sp => parseNameToken t = some sp) toks specs →
      parse_sheet_names (pyJoin [','] toks) = some specs) ∧
    (∀ toks : List Str, toks ≠ [] → (∀ t ∈ toks, ',' ∉ t) →
      (∃ t ∈ toks, parseNameToken t = none) →
      parse_sheet_names (pyJoin [','] toks) = none) := by
  refine ⟨?_, ?_, ?_, ?_, ?_⟩
  · intro n r hn hr hstrip hok
    rw [parseNameToken_pair n r hn hr, if_pos hok, hstrip]
  · intro t ht hstrip
    rw [parseNameToken_bare t ht, hstrip]
  · intro n r hn hr hbad
    rw [parseNameToken_pair n r hn hr, if_neg (by rw [hbad]; simp)]
  · intro toks specs hne hnc hf
    unfold parse_sheet_names
    rw [splitOnChar_pyJoin hne hnc]
    exact traverseOpt_forall₂ hf
  · intro toks hne hnc hex
    unfold parse_sheet_names
    rw [splitOnChar_pyJoin hne hnc]
    exact traverseOpt_none hex

/-- Witness for C7 at the spec's example selector. -/
theorem parse_sheet_names_spec_witness :
    parse_sheet_names ("Sheet1!A1:B10,Sheet2".toList) =
      some [⟨Sum.inr "Sheet1".toList, "A1:B10".toList⟩, ⟨Sum.inr "Sheet2".toList, []⟩] := by
  have h := parse_sheet_names_spec.2.2.2.1
    ["Sheet1!A1:B10".toList, "Sheet2".toList]
    [⟨Sum.inr "Sheet1".toList, "A1:B10".toList⟩, ⟨Sum.inr "Sheet2".toList, []⟩]
    (by simp) (by decide)
    (List.Forall₂.cons (by rfl) (List.Forall₂.cons (by rfl) List.Forall₂.nil))
  exact h

/-! ## C8: the number selector -/

theorem parseNumToken_pair (d1 d2 : Str) (h1 : d1 ≠ []) (hd1 : ∀ c ∈ d1, c.isDigit = true)
    (h2 : d2 ≠ []) (hd2 : ∀ c ∈ d2, c.isDigit = true) :
    parseNumToken (d1 ++ '-' :: d2) =
      some (pyRangeIncl (digitsVal d1) (digitsVal d2)) := by
  have hnd1 : '-' ∉ d1 := fun h => absurd (hd1 '-' h) (by decide)
  have hnd2 : '-' ∉ d2 := fun h => absurd (hd2 '-' h) (by decide)
  unfold parseNumToken
  rw [if_pos (by simp : '-' ∈ d1 ++ '-' :: d2), splitOnChar_append_sep d2 hnd1,
    splitOnChar_of_not_mem hnd2]
  simp only [pyInt_digits h1 hd1, pyInt_digits h2 hd2]

theorem parseNumToken_single (d : Str) (h : d ≠ []) (hd : ∀ c ∈ d, c.isDigit = true) :
    parseNumToken d = some [(digitsVal d : Int)] := by
  have hnd : '-' ∉ d := fun hm => absurd (hd '-' hm) (by decide)
  unfold parseNumToken
  rw [if_neg hnd, pyInt_digits h hd]
  rfl

/-- C8.  Number-selector expansion: `pyRangeIncl a b` is the inclusive
sequence `a, a+1, …, b` (characterised by its recurrence); a hyphenated
digit token `a-b` parses to that expansion and a plain digit token to a
singleton; and the comma-joined selector parses to the concatenation of
the per-token expansions in order, duplicates preserved, every
resulting `SheetSpec` carrying an empty range. -/
theorem parse_sheet_numbers_spec :
    (∀ a b : Int, pyRangeIncl a b = if a ≤ b then a :: pyRangeIncl (a + 1) b else []) ∧
    (∀ d1 d2 : Str, d1 ≠ [] → (∀ c ∈ d1, c.isDigit = true) →
      d2 ≠ [] → (∀ c ∈ d2, c.isDigit = true) →
      parseNumToken (d1 ++ '-' :: d2) = some (pyRangeIncl (digitsVal d1) (digitsVal d2))) ∧
    (∀ d : Str, d ≠ [] → (∀ c ∈ d, c.isDigit = true) →
      parseNumToken d = some [(digitsVal d : Int)]) ∧
    (∀ (toks : List Str) (ls : List (List Int)), toks ≠ [] → (∀ t ∈ toks, ',' ∉ t) →
      List.Forall₂ (fun t l => parseNumToken t = some l) toks ls →
      parse_sheet_numbers (pyJoin [','] toks) =
        some (ls.flatten.map (fun n => ⟨Sum.inl n, []⟩))) := by
  refine ⟨?_, parseNumToken_pair, parseNumToken_single, ?_⟩
  · intro a b
    by_cases hab : a ≤ b
    · rw [if_pos hab]
      unfold pyRangeIncl
      rw [show (b + 1 - a).toNat = (b - a).toNat + 1 from by omega,
        show (b + 1 - (a + 1)).toNat = (b - a).toNat from by omega,
        List.range_succ_eq_map]
      simp only [List.map_cons, List.map_map, Nat.cast_zero, add_zero]
      congr 1
      exact List.map_congr_left fun k _ => by
        simp only [Function.comp_apply, Nat.succ_eq_add_one]
        push_cast
        ring
    · rw [if_neg hab]
      unfold pyRangeIncl
      rw [show (b + 1 - a).toNat = 0 from by omega]
      rfl
  · intro toks ls hne hnc hf
    unfold parse_sheet_numbers
    rw [splitOnChar_pyJoin hne hnc, traverseOpt_forall₂ hf]
    rfl

/-- Witness for C8 at the spec's example selector `'1-3,5'`. -/
theorem parse_sheet_numbers_spec_witness :
    parse_sheet_numbers ("1-3,5".toList) =
      some [⟨Sum.inl 1, []⟩, ⟨Sum.inl 2, []⟩, ⟨Sum.inl 3, []⟩, ⟨Sum.inl 5, []⟩] := by
  have h := parse_sheet_numbers_spec.2.2.2
    ["1-3".toList, "5".toList] [[1, 2, 3], [5]]
    (by simp) (by decide)
    (List.Forall₂.cons (by rfl) (List.Forall₂.cons (by rfl) List.Forall₂.nil))
  exact h

/-! ## Lemmas: the batch driver and the sink -/

theorem save_markdown_eq (enc : Char → Bool) (ul : Str → Bool) (md : List Str)
    (outf : Str) (upl saf : Bool) :
    save_markdown enc ul md outf upl saf = .ok
      ⟨(if saf || !upl then
          [.fileWrite outf (encodeReplace enc (pyJoin ['\n'] md))] else []) ++
        (if upl then [.apiPost (pyBasename outf) (pyJoin ['\n'] md) (ul (pyBasename outf))]
          else []),
       (if saf || !upl then [.infoSaved outf] else []) ++
        (if upl then
          (if ul (pyBasename outf) then [.infoPosted (pyBasename outf)]
            else [.errPost (pyBasename outf)])
          else [])⟩ := by
  cases upl <;> cases saf <;>
    cases hul : ul (pyBasename outf) <;>
      simp [save_markdown, post_markdown_to_api, pyOpenWrite, Out.append, hul]
  all_goals rfl

theorem processLoop_cons (enc : Char → Bool) (ul : Str → Bool) (wb : Workbook)
    (outf : Str) (upl saf : Bool) (sp : SheetSpec) (rest : List SheetSpec) :
    processLoop enc ul wb outf upl saf (sp :: rest) =
      (perSheet enc ul wb sp outf upl saf).append
        (processLoop enc ul wb outf upl saf rest) := rfl

theorem process_ok_eq_loop (wb : Workbook) (enc : Char → Bool) (ul : Str → Bool)
    (outf : Str) (sheets : List SheetSpec) (upl saf : Bool) :
    process_excel_to_markdown (.ok wb) enc ul outf sheets upl saf =
      processLoop enc ul wb outf upl saf sheets := rfl

/-! ## C1: per-sheet failure isolation -/

/-- C1.  Per-sheet failure isolation: the driver is a total function
(it never raises); when opening the workbook fails it produces no
per-sheet effects at all; when the workbook is open, a sheet whose
processing raises contributes exactly one error log and no effects and
the remaining sheets are processed exactly as they would be on their
own, in order, and a succeeding sheet likewise contributes its own
output ahead of the rest. -/
theorem process_failure_isolation :
    (∀ (e : PyErr) (enc : Char → Bool) (ul : Str → Bool) (outf : Str)
       (sheets : List SheetSpec) (upl saf : Bool),
      (process_excel_to_markdown (.error e) enc ul outf sheets upl saf).effects = []) ∧
    (∀ (wb : Workbook) (enc : Char → Bool) (ul : Str → Bool) (outf : Str)
       (sp : SheetSpec) (rest : List SheetSpec) (upl saf : Bool)
       (err : PyErr × Sum Int Str),
      pSheetBody enc ul wb sp outf upl saf = .error err →
      process_excel_to_markdown (.ok wb) enc ul outf (sp :: rest) upl saf =
        Out.append ⟨[], [catchSheet err]⟩
          (process_excel_to_markdown (.ok wb) enc ul outf rest upl saf)) ∧
    (∀ (wb : Workbook) (enc : Char → Bool) (ul : Str → Bool) (outf : Str)
       (sp : SheetSpec) (rest : List SheetSpec) (upl saf : Bool) (out : Out),
      pSheetBody enc ul wb sp outf upl saf = .ok out →
      process_excel_to_markdown (.ok wb) enc ul outf (sp :: rest) upl saf =
        Out.append out (process_excel_to_markdown (.ok wb) enc ul outf rest upl saf)) := by
  refine ⟨?_, ?_, ?_⟩
  · intro e enc ul outf sheets upl saf
    cases e <;> rfl
  · intro wb enc ul outf sp rest upl saf err hbody
    rw [process_ok_eq_loop, process_ok_eq_loop, processLoop_cons]
    unfold perSheet
    rw [hbody]
  · intro wb enc ul outf sp rest upl saf out hbody
    rw [process_ok_eq_loop, process_ok_eq_loop, processLoop_cons]
    unfold perSheet
    rw [hbody]

/-- Witness for C1: on a concrete workbook, a spec naming a
nonexistent sheet is caught as one error log and the following sheet is
still processed. -/
theorem process_failure_isolation_witness :
    process_excel_to_markdown (.ok testWb) encAll upOkAll ['o']
      [⟨Sum.inr ['Z'], []⟩, ⟨Sum.inr ['C'], []⟩] false false =
      Out.append ⟨[], [.errSheetUnexpected (Sum.inr ['Z'])]⟩
        (process_excel_to_markdown (.ok testWb) encAll upOkAll ['o']
          [⟨Sum.inr ['C'], []⟩] false false) :=
  process_failure_isolation.2.1 testWb encAll upOkAll ['o'] ⟨Sum.inr ['Z'], []⟩
    [⟨Sum.inr ['C'], []⟩] false false (PyErr.other, Sum.inr ['Z']) rfl

/-! ## C4: the output-sink contract -/

/-- C4.  Output-sink contract: the sink never raises and a local file
effect is produced exactly when `save_as_file or not upload` holds,
with unencodable characters replaced rather than failing; when
`upload` is true, `save_as_file` false and the upload fails, no file is
written and the only log is the upload error; and a sheet whose upload
failed does not prevent the next sheet from being processed. -/
theorem save_markdown_contract :
    (∀ (enc : Char → Bool) (ul : Str → Bool) (md : List Str) (outf : Str) (upl saf : Bool),
      save_markdown enc ul md outf upl saf = .ok
        ⟨(if saf || !upl then
            [.fileWrite outf (encodeReplace enc (pyJoin ['\n'] md))] else []) ++
          (if upl then [.apiPost (pyBasename outf) (pyJoin ['\n'] md) (ul (pyBasename outf))]
            else []),
         (if saf || !upl then [.infoSaved outf] else []) ++
          (if upl then
            (if ul (pyBasename outf) then [.infoPosted (pyBasename outf)]
              else [.errPost (pyBasename outf)])
            else [])⟩) ∧
    (∀ (enc : Char → Bool) (ul : Str → Bool) (md : List Str) (outf : Str),
      ul (pyBasename outf) = false →
      save_markdown enc ul md outf true false =
        .ok ⟨[.apiPost (pyBasename outf) (pyJoin ['\n'] md) false],
             [.errPost (pyBasename outf)]⟩) ∧
    (∀ (wb : Workbook) (enc : Char → Bool) (ul : Str → Bool) (outf : Str)
       (sp : SheetSpec) (rest : List SheetSpec) (out : Out),
      pSheetBody enc ul wb sp outf true false = .ok out →
      process_excel_to_markdown (.ok wb) enc ul outf (sp :: rest) true false =
        Out.append out (process_excel_to_markdown (.ok wb) enc ul outf rest true false)) := by
  refine ⟨save_markdown_eq, ?_, ?_⟩
  · intro enc ul md outf hul
    rw [save_markdown_eq]
    simp [hul]
  · intro wb enc ul outf sp rest out hbody
    rw [process_ok_eq_loop, process_ok_eq_loop, processLoop_cons]
    unfold perSheet
    rw [hbody]

/-- Witness for C4: a concrete upload-only call whose upload fails
writes no file, logs one upload error, and returns normally. -/
theorem save_markdown_contract_witness :
    save_markdown encAll upFailAll [['x']] ['f'] true false =
      .ok ⟨[.apiPost ['f'] ['x'] false], [.errPost ['f']]⟩ :=
  save_markdown_contract.2.1 encAll upFailAll [['x']] ['f'] rfl

/-! ## C10: numeric sheet resolution -/

/-- C10 counterexample: with three sheets, the integer spec `-5`
produces the out-of-bounds resolution error although `-5` is not
greater than the number of sheets, so the error does not occur only
for indices greater than the sheet count. -/
theorem resolve_sheet_oob_negative :
    resolve_sheet [['A'], ['B'], ['C']] (-5) = none ∧
    ¬ ((-5 : Int) > (([['A'], ['B'], ['C']] : List Str).length : Int)) := by
  constructor
  · rfl
  · decide

theorem pyGet_eq_none_iff {α : Type} (l : List α) (i : Int) :
    pyGet l i = none ↔ ((l.length : Int) ≤ i ∨ i < -(l.length : Int)) := by
  unfold pyGet
  by_cases h0 : 0 ≤ i
  · rw [if_pos h0, List.get?_eq_none]
    omega
  · rw [if_neg h0]
    by_cases h1 : (-i).toNat ≤ l.length
    · rw [if_pos h1]
      have hlt : l.length - (-i).toNat < l.length := by omega
      rw [List.get?_eq_getElem?, List.getElem?_eq_getElem hlt]
      simp only [reduceCtorEq, false_iff]
      omega
    · rw [if_neg h1]
      simp only [true_iff]
      omega

/-- C10 (amended).  The driver resolves an integer spec `i` at Python
index `i − 1`: indices `1..n` select normally, `i = 0` selects the last
sheet, a negative `i` within bounds selects from the end, and the
out-of-bounds resolution error occurs exactly when `i > n` or
`i < 1 − n`; an unresolvable index is caught per sheet as one error
log naming the integer spec. -/
theorem resolve_sheet_spec :
    (∀ (names : List Str) (i : Int), 1 ≤ i → i ≤ (names.length : Int) →
      resolve_sheet names i = names.get? (i - 1).toNat) ∧
    (∀ names : List Str, resolve_sheet names 0 = names.getLast?) ∧
    (∀ (names : List Str) (i : Int), i ≤ 0 → 1 - (names.length : Int) ≤ i →
      resolve_sheet names i = names.get? ((names.length : Int) + i - 1).toNat) ∧
    (∀ (names : List Str) (i : Int),
      resolve_sheet names i = none ↔
        ((names.length : Int) < i ∨ i < 1 - (names.length : Int))) ∧
    (∀ (wb : Workbook) (i : Int) (enc : Char → Bool) (ul : Str → Bool)
       (outf r : Str) (upl saf : Bool),
      resolve_sheet wb.sheet_names i = none →
      perSheet enc ul wb ⟨Sum.inl i, r⟩ outf upl saf =
        ⟨[], [.errSheetUnexpected (Sum.inl i)]⟩) := by
  refine ⟨?_, ?_, ?_, ?_, ?_⟩
  · intro names i h1 h2
    unfold resolve_sheet pyGet
    rw [if_pos (by omega)]
  · intro names
    unfold resolve_sheet pyGet
    rw [if_neg (by omega)]
    cases names with
    | nil => rw [if_neg (by decide)]; rfl
    | cons a as =>
      rw [if_pos (by simp only [List.length_cons]; omega)]
      rw [show (-((0 : Int) - 1)).toNat = 1 from rfl, List.get?_eq_getElem?,
        List.getLast?_eq_getElem?]
  · intro names i h1 h2
    unfold resolve_sheet pyGet
    rw [if_neg (by omega), if_pos (by omega)]
    congr 1
    omega
  · intro names i
    unfold resolve_sheet
    rw [pyGet_eq_none_iff]
    omega
  · intro wb i enc ul outf r upl saf hnone
    unfold perSheet pSheetBody
    dsimp only
    rw [hnone]
    rfl

/-- Witness for C10 on a concrete three-sheet workbook: index 1 selects
the first sheet, index 0 the last, index −1 the second-from-last, and
the out-of-bounds characterisation holds at 4; the driver turns the
unresolvable index 4 into one per-sheet error log. -/
theorem resolve_sheet_spec_witness :
    resolve_sheet [['A'], ['B'], ['C']] 1 = some ['A'] ∧
    resolve_sheet [['A'], ['B'], ['C']] 0 = some ['C'] ∧
    resolve_sheet [['A'], ['B'], ['C']] (-1) = some ['B'] ∧
    (resolve_sheet [['A'], ['B'], ['C']] 4 = none ↔
      ((3 : Int) < 4 ∨ (4 : Int) < 1 - 3)) ∧
    perSheet encAll upOkAll testWb ⟨Sum.inl 4, []⟩ ['o'] false false =
      ⟨[], [.errSheetUnexpected (Sum.inl 4)]⟩ := by
  refine ⟨?_, ?_, ?_, ?_, ?_⟩
  · exact (resolve_sheet_spec.1 [['A'], ['B'], ['C']] 1 (by decide) (by decide)).trans (by decide)
  · exact (resolve_sheet_spec.2.1 [['A'], ['B'], ['C']]).trans (by decide)
  · exact (resolve_sheet_spec.2.2.1 [['A'], ['B'], ['C']] (-1) (by decide) (by decide)).trans
      (by decide)
  · exact (resolve_sheet_spec.2.2.2.1 [['A'], ['B'], ['C']] 4).trans (by decide)
  · exact resolve_sheet_spec.2.2.2.2 testWb 4 encAll upOkAll ['o'] [] false false rfl

end Ex2md
